import Mathlib

/-!
# Verification of the covalent QSVM tutorial/challenge pipeline

Shallow embedding of the kernel-matrix assembly, data loading/scaling,
train/test partitioning, confusion-matrix and quantum-kernel-circuit code of
the two notebooks (`covalent_qsvm_tutorial.ipynb`,
`covalent_qsvm_challenge_solution.ipynb` and the challenge notebook).

Lists stand for 1-D numpy arrays, lists of lists for 2-D arrays; machine
reals are modelled by an arbitrary linear ordered field (instantiated at `ℚ`
for executable checks and at `ℝ` where the constant `2 * PI` matters).
Fallible numpy operations (`reshape` with a size mismatch raises
`ValueError`) return `Option`.
-/

namespace QSVM

/-! ## Settings cell: `N_TEST = 2`, `N_TRAIN = 6`, `N_TOT = N_TEST + N_TRAIN`,
`RANDOM_SEED = 2022` -/

def N_TEST : ℕ := 2
def N_TRAIN : ℕ := 6
def N_TOT : ℕ := N_TEST + N_TRAIN
def RANDOM_SEED : ℕ := 2022

/-! ## Kernel matrix assembly

`construct_K_matrix(K_values, X1, X2)` is `np.array(K_values).reshape((n1, n2))`
with `n1 = len(X1)`, `n2 = len(X2)`.  numpy's `reshape` is row-major (C
order) and raises `ValueError` when `len(K_values) ≠ n1 * n2`; the raise is
modelled by `none`. -/

/-- Row-major reshape: cut a flat list into `n1` consecutive rows of `n2`
elements each (the first component counts remaining rows). -/
def reshapeRows {α : Type} : ℕ → ℕ → List α → List (List α)
  | 0, _, _ => []
  | n + 1, m, K => K.take m :: reshapeRows n m (K.drop m)

/-- Function `construct_K_matrix` from the challenge notebooks: reshape the flat list
of kernel values using the lengths of the two sample sets; `none` models the
`ValueError` numpy raises on a size mismatch. -/
def construct_K_matrix {α β γ : Type} (K_values : List α) (X1 : List β)
    (X2 : List γ) : Option (List (List α)) :=
  if K_values.length = X1.length * X2.length then
    some (reshapeRows X1.length X2.length K_values)
  else
    none

/-- The flat kernel-value sequence produced by the workflow's nested loop
(outer loop over `X1`, inner loop over `X2`), in the order the values are
appended. -/
def kernel_values {α β : Type} (k : α → α → β) (X1 X2 : List α) : List β :=
  X1.flatMap fun x1 => X2.map fun x2 => k x1 x2

/-- Function `qkernel_matrix` from the tutorial notebook:
`np.array([[qkernel_circuit(x1, x2) for x2 in X2] for x1 in X1])`. -/
def qkernel_matrix {α β : Type} (k : α → α → β) (X1 X2 : List α) :
    List (List β) :=
  X1.map fun x1 => X2.map fun x2 => k x1 x2

/-! ### Lemmas about the reshape -/

theorem reshapeRows_length {α : Type} (n1 n2 : ℕ) (K : List α) :
    (reshapeRows n1 n2 K).length = n1 := by
  induction n1 generalizing K with
  | zero => rfl
  | succ n ih => simp [reshapeRows, ih]

theorem reshapeRows_row_length {α : Type} (n1 n2 : ℕ) (K : List α)
    (hK : K.length = n1 * n2) :
    ∀ r ∈ reshapeRows n1 n2 K, r.length = n2 := by
  induction n1 generalizing K with
  | zero => intro r hr; simp [reshapeRows] at hr
  | succ n ih =>
    intro r hr
    simp only [reshapeRows, List.mem_cons] at hr
    rcases hr with rfl | hr
    · have h2 : n2 ≤ K.length := by
        rw [hK, Nat.succ_mul]; exact Nat.le_add_left n2 (n * n2)
      simp [List.length_take, Nat.min_eq_left h2]
    · exact ih (K.drop n2)
        (by rw [List.length_drop, hK, Nat.succ_mul, Nat.add_sub_cancel]) r hr

theorem reshapeRows_getD {α : Type} (n1 n2 : ℕ) (K : List α)
    (hK : K.length = n1 * n2) (i j : ℕ) (hi : i < n1) (hj : j < n2)
    (d : α) :
    ((reshapeRows n1 n2 K).getD i []).getD j d = K.getD (i * n2 + j) d := by
  induction n1 generalizing K i with
  | zero => omega
  | succ n ih =>
    cases i with
    | zero =>
      simp only [reshapeRows, List.getD_cons_zero, Nat.zero_mul, Nat.zero_add]
      simp only [List.getD, List.getElem?_take]
      simp [hj]
    | succ i' =>
      have hi' : i' < n := by omega
      simp only [reshapeRows, List.getD_cons_succ]
      rw [ih (K.drop n2)
        (by rw [List.length_drop, hK, Nat.succ_mul, Nat.add_sub_cancel]) i' hi']
      have harith : n2 + (i' * n2 + j) = (i' + 1) * n2 + j := by ring
      simp only [List.getD_eq_getElem?_getD, List.getElem?_drop, harith]

theorem reshapeRows_flatten {α : Type} (n2 : ℕ) (L : List (List α))
    (hL : ∀ r ∈ L, r.length = n2) :
    reshapeRows L.length n2 L.flatten = L := by
  induction L with
  | nil => rfl
  | cons r rest ih =>
    have hr : r.length = n2 := hL r (List.mem_cons_self r rest)
    simp only [List.length_cons, List.flatten_cons, reshapeRows]
    rw [← hr, List.take_left, List.drop_left]
    rw [hr, ih fun s hs => hL s (List.mem_cons_of_mem r hs)]

theorem kernel_values_eq_flatten {α β : Type} (k : α → α → β)
    (X1 X2 : List α) :
    kernel_values k X1 X2 = (qkernel_matrix k X1 X2).flatten := by
  simp [kernel_values, qkernel_matrix, List.flatMap_def]

theorem kernel_values_length {α β : Type} (k : α → α → β) (X1 X2 : List α) :
    (kernel_values k X1 X2).length = X1.length * X2.length := by
  induction X1 with
  | nil => simp [kernel_values]
  | cons x xs ih =>
    simp only [kernel_values, List.flatMap_cons, List.length_append,
      List.length_map, List.length_cons] at ih ⊢
    rw [ih]; ring

/-! ## Train/test partitioning

`sklearn.model_selection.train_test_split(X, y, test_size, random_state,
stratify)` shuffles the index range `0 .. len(X) - 1` with a PRNG and splits
it into train and test index blocks, then selects the corresponding rows of
every passed array.  The PRNG is seeded from `random_state` when that
argument is given, and from the ambient global numpy RNG state otherwise.
The index-selection policy (shuffling, test-block sizing, stratification) is
internal to sklearn and is kept abstract here as a function
`split : resolved seed → test_size → n → (train indices, test indices)`;
the documented guarantee that the two index blocks together are a
permutation of `0 .. n - 1` enters the theorems as a hypothesis. -/

/-- A split primitive: given the resolved seed, the `test_size` fraction and
the number of rows, produce the train and test index lists. -/
def SplitFn : Type := ℕ → ℚ → ℕ → List ℕ × List ℕ

/-- Call `train_test_split(X, y, test_size=ts, random_state=rs)`.  `g` is the
ambient global RNG state, consulted only when `random_state` is absent. -/
def sk_train_test_split {α β : Type} (split : SplitFn) (g : ℕ)
    (rs : Option ℕ) (ts : ℚ) (X : List α) (y : List β) :
    List α × List α × List β × List β :=
  let seed := rs.getD g
  let idx := split seed ts X.length
  (idx.1.filterMap fun i => X.get? i, idx.2.filterMap fun i => X.get? i,
   idx.1.filterMap fun i => y.get? i, idx.2.filterMap fun i => y.get? i)

/-- First stage of the challenge notebooks' `partition_data`:
`_, X0, _, y0 = train_test_split(X, y, test_size=N_TOT / len(X),
random_state=RANDOM_SEED, stratify=y)`. -/
def partition_stage1 {α : Type} (split : SplitFn) (g : ℕ) (X : List α)
    (y : List ℕ) : List α × List α × List ℕ × List ℕ :=
  sk_train_test_split split g (some RANDOM_SEED)
    ((N_TOT : ℚ) / (X.length : ℚ)) X y

/-- Function `partition_data` from the challenge notebooks: keep only the test side
`(X0, y0)` of the first split, then split it again into `N_TRAIN` train and
`N_TEST` test samples, both times with `random_state=RANDOM_SEED`. -/
def partition_data {α : Type} (split : SplitFn) (g : ℕ) (X : List α)
    (y : List ℕ) : List α × List α × List ℕ × List ℕ :=
  let s1 := partition_stage1 split g X y
  sk_train_test_split split g (some RANDOM_SEED)
    ((N_TEST : ℚ) / (N_TOT : ℚ)) s1.2.1 s1.2.2.2

/-- Function `partition_data` from the tutorial notebook: a single
`train_test_split(X, y, test_size=0.25, random_state=RANDOM_SEED,
stratify=y)`. -/
def partition_data_tutorial {α : Type} (split : SplitFn) (g : ℕ)
    (X : List α) (y : List ℕ) : List α × List α × List ℕ × List ℕ :=
  sk_train_test_split split g (some RANDOM_SEED) (1 / 4) X y

/-- sklearn's documented behaviour of one `train_test_split` call: the train
and test index blocks together are a permutation of the row index range. -/
@[reducible]
def SplitsRange (split : SplitFn) (seed : ℕ) (ts : ℚ) (n : ℕ) : Prop :=
  ((split seed ts n).1 ++ (split seed ts n).2).Perm (List.range n)

/-! ## Dataset loading and scaling (`get_data`)

`get_data` loads the wine dataset (external; a parameter `raw` here), keeps
feature columns 9 and 10 (`features[:, 9:11]`), in the challenge variant
drops the third class (`idx = (y < 2)`), then rescales each kept column with
`MinMaxScaler((0, 2 * PI))` fitted on the same data.  `MinMaxScaler` maps a
column linearly so that its minimum goes to `0` and its maximum to the upper
range bound (`2π` in the source, the parameter `twoPi` here); a zero data
range is replaced by `1` (sklearn's `_handle_zeros_in_scale`).  The scalar
field is abstracted so the same definitions run on `ℚ` and instantiate at
`ℝ` with `twoPi = 2 * Real.pi`. -/

section GetData

variable {F : Type} [LinearOrderedField F]

/-- Column selection `features[:, 9:11]`: keep columns 9 and 10 of every row. -/
def select_columns (raw_X : List (List F)) : List (List F) :=
  raw_X.map fun r => [r.getD 9 0, r.getD 10 0]

/-- Filtering `idx = (y < 2); y = y[idx]; X = X[idx]`: boolean-mask both arrays by the
label predicate. -/
def filter_classes (X : List (List F)) (y : List ℕ) :
    List (List F) × List ℕ :=
  let ps := (X.zip y).filter fun p => p.2 < 2
  (ps.map Prod.fst, ps.map Prod.snd)

/-- Minimum of a data column (`0` for an empty column, unused case). -/
def listMin : List F → F
  | [] => 0
  | x :: xs => xs.foldl min x

/-- Maximum of a data column (`0` for an empty column, unused case). -/
def listMax : List F → F
  | [] => 0
  | x :: xs => xs.foldl max x

/-- sklearn's `_handle_zeros_in_scale`: a zero range is replaced by `1`. -/
def handleZero (d : F) : F := if d = 0 then 1 else d

/-- Scaler `MinMaxScaler((0, hi))` fitted on `col` and applied to `col` itself:
`v ↦ (v - min) * (hi / (max - min))`. -/
def scaleCol (hi : F) (col : List F) : List F :=
  let dmin := listMin col
  let dmax := listMax col
  col.map fun v => (v - dmin) * (hi / handleZero (dmax - dmin))

/-- Composition `scaler.fit(X); scaler.transform(X)` on the 2-column matrix: each column
is rescaled independently. -/
def minmax_transform (hi : F) (X : List (List F)) : List (List F) :=
  let s0 := scaleCol hi (X.map fun r => r.getD 0 0)
  let s1 := scaleCol hi (X.map fun r => r.getD 1 0)
  (s0.zip s1).map fun p => [p.1, p.2]

/-- Function `get_data` from the challenge notebooks: select columns 9–10, drop the
third class, scale into `(0, twoPi)`. -/
def get_data (twoPi : F) (raw : List (List F) × List ℕ) :
    List (List F) × List ℕ :=
  let X := select_columns raw.1
  let fc := filter_classes X raw.2
  (minmax_transform twoPi fc.1, fc.2)

/-- Function `get_data` from the tutorial notebook: same, but no class filtering. -/
def get_data_tutorial (twoPi : F) (raw : List (List F) × List ℕ) :
    List (List F) × List ℕ :=
  (minmax_transform twoPi (select_columns raw.1), raw.2)

end GetData

/-! ## Classifier metrics (`get_metrics`)

`sklearn.metrics.confusion_matrix(y_true, y_pred)` (no `labels` argument)
uses the sorted distinct labels occurring in `y_true` or `y_pred` as both
row and column index sets; entry `(i, j)` counts the samples with true label
`labels[i]` and predicted label `labels[j]`.  The SVC itself is external and
opaque; `get_metrics` only needs its `predict`, which is abstracted as a
function argument in the workflow below. -/

/-- The sorted distinct labels of a label list. -/
def cmLabels (l : List ℕ) : List ℕ := l.dedup.mergeSort (· ≤ ·)

/-- Matrix `confusion_matrix(y_true, y_pred)`. -/
def confusion_matrix (y_true y_pred : List ℕ) : List (List ℕ) :=
  let labels := cmLabels (y_true ++ y_pred)
  labels.map fun t => labels.map fun p =>
    ((y_true.zip y_pred).filter fun tp => tp.1 = t ∧ tp.2 = p).length

/-! ## The workflows

The challenge workflow loads and partitions the data, fills the two flat
kernel-value lists with the nested loops `for i in range(N_TRAIN): for j in
range(N_TRAIN): …` and `for i in range(N_TEST): for j in range(N_TRAIN): …`,
reshapes them with `construct_K_matrix`, trains the SVC and computes the
metrics.  The kernel circuit and the SVC are external calls, abstracted as
the function arguments `k` and `pred` (`pred Ktrain ytrain Ktest` is
`SVC().fit(Ktrain, ytrain).predict(Ktest)`).  Python's `X_train[i]` raises
on an out-of-range index; here `getD` returns a default row, and the
workflow theorems pin the partition sizes so the two never differ. -/

section Workflow

variable {F : Type} [LinearOrderedField F]

/-- The flat kernel-value list built by an index-based nested loop
`for i in range(n1): for j in range(n2): append k(X1[i], X2[j])`. -/
def kernel_values_idx (k : List F → List F → F) (X1 X2 : List (List F))
    (n1 n2 : ℕ) : List F :=
  (List.range n1).flatMap fun i =>
    (List.range n2).map fun j => k (X1.getD i []) (X2.getD j [])

/-- Function `workflow` from the challenge notebooks.  `none` models an uncaught
reshape `ValueError`. -/
def workflow (twoPi : F) (split : SplitFn) (g : ℕ)
    (raw : List (List F) × List ℕ) (k : List F → List F → F)
    (pred : List (List F) → List ℕ → List (List F) → List ℕ) :
    Option ((List (List F) × List (List F) × List ℕ × List ℕ) ×
      List ℕ × List (List ℕ)) :=
  let d := get_data twoPi raw
  let p := partition_data split g d.1 d.2
  let X_train := p.1
  let X_test := p.2.1
  let y_train := p.2.2.1
  let y_test := p.2.2.2
  let K_train_values := kernel_values_idx k X_train X_train N_TRAIN N_TRAIN
  let K_test_values := kernel_values_idx k X_test X_train N_TEST N_TRAIN
  match construct_K_matrix K_train_values X_train X_train,
        construct_K_matrix K_test_values X_test X_train with
  | some K_matrix_train, some K_matrix_test =>
    let y_pred := pred K_matrix_train y_train K_matrix_test
    some ((X_train, X_test, y_train, y_test), y_pred,
      confusion_matrix y_test y_pred)
  | _, _ => none

/-- Function `workflow` from the tutorial notebook: kernel matrices come from the
nested comprehension `qkernel_matrix`, with no reshape step. -/
def workflow_tutorial (twoPi : F) (split : SplitFn) (g : ℕ)
    (raw : List (List F) × List ℕ) (k : List F → List F → F)
    (pred : List (List F) → List ℕ → List (List F) → List ℕ) :
    (List (List F) × List (List F) × List ℕ × List ℕ) ×
      List ℕ × List (List ℕ) :=
  let d := get_data_tutorial twoPi raw
  let p := partition_data_tutorial split g d.1 d.2
  let X_train := p.1
  let X_test := p.2.1
  let y_train := p.2.2.1
  let y_test := p.2.2.2
  let K_matrix_train := qkernel_matrix k X_train X_train
  let K_matrix_test := qkernel_matrix k X_test X_train
  let y_pred := pred K_matrix_train y_train K_matrix_test
  ((X_train, X_test, y_train, y_test), y_pred,
    confusion_matrix y_test y_pred)

end Workflow

/-! ## Quantum kernel circuit (`qkernel_circuit`)

The challenge notebooks' circuit on every wire `w ∈ {0, 1}` applies
`RX(x1[w])` (from `qml.AngleEmbedding(features=x1, wires=range(2))`, whose
default rotation is `X`) followed by `RX(x2[w])⁻¹ = RX(-x2[w])` (from
`qml.adjoint(qml.AngleEmbedding)(features=x2, …)`), starting in the state
`|00⟩`, and estimates the expectation of the projector `|00⟩⟨00|` from
`shots = 1000` measurement samples.  The two wires never interact, so the
joint `|00⟩` amplitude is the product of the per-wire `|0⟩` amplitudes.
Each shot yields eigenvalue `1` (outcome `00`) with probability
`qkernel_prob` and `0` otherwise; the circuit's return value is the sample
mean, i.e. the outcome-`00` frequency.  The sampled outcomes are modelled as
an arbitrary record `o`, constrained only where the distribution is
degenerate (`ValidShots`). -/

def shots : ℕ := 1000

/-- Action of the gate `RX θ = exp(-i θ X / 2)` on a single-qubit state
written in the computational basis. -/
noncomputable def applyRX (θ : ℝ) (v : ℂ × ℂ) : ℂ × ℂ :=
  ((Real.cos (θ / 2) : ℂ) * v.1 - Complex.I * (Real.sin (θ / 2) : ℂ) * v.2,
   -(Complex.I * (Real.sin (θ / 2) : ℂ)) * v.1 + (Real.cos (θ / 2) : ℂ) * v.2)

/-- Amplitude of `|0⟩` on one wire after `RX a` then `RX b`-adjoint, starting
from `|0⟩`. -/
noncomputable def wireAmp (a b : ℝ) : ℂ :=
  (applyRX (-b) (applyRX a (1, 0))).1

/-- Exact outcome-`00` probability of the kernel circuit on the pair of
2-feature samples `x1`, `x2`. -/
noncomputable def qkernel_prob (x1 x2 : ℝ × ℝ) : ℝ :=
  Complex.normSq (wireAmp x1.1 x2.1 * wireAmp x1.2 x2.2)

/-- The value returned by the 1000-shot circuit: the frequency of the
outcome `00` among the recorded shots (`true` = outcome `00`). -/
noncomputable def qkernel_estimate (o : Fin shots → Bool) : ℝ :=
  ((Finset.univ.filter fun i => o i = true).card : ℝ) / (shots : ℝ)

/-- Constraints a genuine sample record must satisfy: a sure outcome is
recorded surely. -/
def ValidShots (p : ℝ) (o : Fin shots → Bool) : Prop :=
  (p = 1 → ∀ i, o i = true) ∧ (p = 0 → ∀ i, o i = false)

theorem wireAmp_eq (a b : ℝ) : wireAmp a b = (Real.cos ((a - b) / 2) : ℂ) := by
  have h : (a - b) / 2 = a / 2 - b / 2 := by ring
  rw [h, Real.cos_sub]
  simp only [wireAmp, applyRX, mul_one, mul_zero, sub_zero, add_zero,
    zero_add, neg_div, Real.cos_neg, Real.sin_neg, Complex.ofReal_neg]
  push_cast
  ring_nf
  rw [Complex.I_sq]
  ring

theorem qkernel_prob_eq (x1 x2 : ℝ × ℝ) :
    qkernel_prob x1 x2 =
      Real.cos ((x1.1 - x2.1) / 2) ^ 2 * Real.cos ((x1.2 - x2.2) / 2) ^ 2 := by
  simp only [qkernel_prob, wireAmp_eq, Complex.normSq_mul,
    Complex.normSq_ofReal]
  ring

theorem qkernel_prob_self (x : ℝ × ℝ) : qkernel_prob x x = 1 := by
  simp [qkernel_prob_eq]

theorem qkernel_prob_nonneg (x1 x2 : ℝ × ℝ) : 0 ≤ qkernel_prob x1 x2 :=
  Complex.normSq_nonneg _

theorem qkernel_prob_le_one (x1 x2 : ℝ × ℝ) : qkernel_prob x1 x2 ≤ 1 := by
  rw [qkernel_prob_eq]
  have h1 := Real.cos_sq_le_one ((x1.1 - x2.1) / 2)
  have h2 := Real.cos_sq_le_one ((x1.2 - x2.2) / 2)
  have h1' := sq_nonneg (Real.cos ((x1.1 - x2.1) / 2))
  have h2' := sq_nonneg (Real.cos ((x1.2 - x2.2) / 2))
  nlinarith

theorem qkernel_estimate_nonneg (o : Fin shots → Bool) :
    0 ≤ qkernel_estimate o := by
  unfold qkernel_estimate
  positivity

theorem qkernel_estimate_le_one (o : Fin shots → Bool) :
    qkernel_estimate o ≤ 1 := by
  unfold qkernel_estimate
  rw [div_le_one (by norm_num [shots])]
  have h : (Finset.univ.filter fun i => o i = true).card ≤ shots := by
    calc (Finset.univ.filter fun i => o i = true).card
        ≤ (Finset.univ : Finset (Fin shots)).card := Finset.card_filter_le _ _
      _ = shots := by rw [Finset.card_univ, Fintype.card_fin]
  exact_mod_cast h

theorem qkernel_estimate_all_true (o : Fin shots → Bool)
    (h : ∀ i, o i = true) : qkernel_estimate o = 1 := by
  unfold qkernel_estimate
  have : (Finset.univ.filter fun i => o i = true) =
      (Finset.univ : Finset (Fin shots)) := by
    apply Finset.filter_true_of_mem
    intro i _
    exact h i
  rw [this, Finset.card_univ, Fintype.card_fin]
  norm_num [shots]

/-! ## Further reshape lemmas -/

theorem reshapeRows_inj {α : Type} {n1 n2 : ℕ} {K K' : List α}
    (hK : K.length = n1 * n2) (hK' : K'.length = n1 * n2)
    (h : reshapeRows n1 n2 K = reshapeRows n1 n2 K') : K = K' := by
  cases K with
  | nil =>
    cases K' with
    | nil => rfl
    | cons b m =>
      simp only [List.length_nil] at hK
      rw [← hK] at hK'
      simp at hK'
  | cons a l =>
    apply List.ext_getElem (by rw [hK, hK'])
    intro i h1 h2
    have hn2 : 0 < n2 := by
      rcases Nat.eq_zero_or_pos n2 with h0 | h0
      · exfalso
        rw [hK, h0, Nat.mul_zero] at h1
        exact Nat.not_lt_zero i h1
      · exact h0
    have hilen : i < n1 * n2 := by rw [← hK]; exact h1
    have hdiv : i / n2 < n1 :=
      Nat.div_lt_of_lt_mul (by rw [Nat.mul_comm]; exact hilen)
    have hmod : i % n2 < n2 := Nat.mod_lt _ hn2
    have hidx : i / n2 * n2 + i % n2 = i := by
      rw [Nat.mul_comm]; exact Nat.div_add_mod i n2
    have e1 := reshapeRows_getD n1 n2 (a :: l) hK (i / n2) (i % n2) hdiv hmod a
    have e2 := reshapeRows_getD n1 n2 K' hK' (i / n2) (i % n2) hdiv hmod a
    rw [h, e2, hidx] at e1
    rw [List.getD_eq_getElem (a :: l) a h1] at e1
    rw [List.getD_eq_getElem K' a h2] at e1
    exact e1.symm

/-! ## Claim C1 -/

/-- C1: for a flat sequence of kernel values produced by the nested loop
(outer loop over the sample set `A` of size `n1`, inner loop over `B` of
size `n2`), `construct_K_matrix` returns a matrix of shape `(n1, n2)` whose
entry at position `(i, j)` is the value at flat index `i * n2 + j`. -/
theorem C1_construct_K_matrix_reshape {α β : Type} (k : β → β → α)
    (A B : List β) (d : α) (i j : ℕ) (hi : i < A.length)
    (hj : j < B.length) :
    ∃ M, construct_K_matrix (kernel_values k A B) A B = some M ∧
      M.length = A.length ∧ (∀ r ∈ M, r.length = B.length) ∧
      (M.getD i []).getD j d =
        (kernel_values k A B).getD (i * B.length + j) d := by
  have hlen := kernel_values_length k A B
  refine ⟨reshapeRows A.length B.length (kernel_values k A B), ?_, ?_, ?_, ?_⟩
  · unfold construct_K_matrix
    rw [if_pos hlen]
  · exact reshapeRows_length _ _ _
  · exact reshapeRows_row_length _ _ _ hlen
  · exact reshapeRows_getD _ _ _ hlen i j hi hj d

/-- Witness for C1 at a concrete input: sets of sizes 2 and 3, position
`(1, 2)`. -/
theorem C1_construct_K_matrix_reshape_witness :
    1 < [10, 20].length ∧ 2 < [3, 4, 5].length ∧
    ∃ M, construct_K_matrix
        (kernel_values (fun a b => a * 100 + b) [10, 20] [3, 4, 5])
        [10, 20] [3, 4, 5] = some M ∧
      M.length = [10, 20].length ∧ (∀ r ∈ M, r.length = [3, 4, 5].length) ∧
      (M.getD 1 []).getD 2 0 =
        (kernel_values (fun a b => a * 100 + b) [10, 20] [3, 4, 5]).getD
          (1 * [3, 4, 5].length + 2) 0 :=
  ⟨by decide, by decide,
    C1_construct_K_matrix_reshape (fun a b => a * 100 + b) [10, 20] [3, 4, 5]
      0 1 2 (by decide) (by decide)⟩

/-! ## Claim C9 -/

theorem construct_kernel_values_eq {α β : Type} (k : α → α → β)
    (X1 X2 : List α) :
    construct_K_matrix (kernel_values k X1 X2) X1 X2 =
      some (qkernel_matrix k X1 X2) := by
  have hlen := kernel_values_length k X1 X2
  have hrows : ∀ r ∈ qkernel_matrix k X1 X2, r.length = X2.length := by
    intro r hr
    simp only [qkernel_matrix, List.mem_map] at hr
    obtain ⟨x, _, rfl⟩ := hr
    simp
  have hlen1 : (qkernel_matrix k X1 X2).length = X1.length := by
    simp [qkernel_matrix]
  unfold construct_K_matrix
  rw [if_pos hlen]
  congr 1
  calc reshapeRows X1.length X2.length (kernel_values k X1 X2)
      = reshapeRows (qkernel_matrix k X1 X2).length X2.length
          (qkernel_matrix k X1 X2).flatten := by
        rw [hlen1, kernel_values_eq_flatten]
    _ = qkernel_matrix k X1 X2 := reshapeRows_flatten _ _ hrows

/-- C9: for every kernel function and every pair of sample lists, the
challenge construction (flat row-major kernel-value list fed through
`construct_K_matrix`) yields exactly the tutorial's nested-comprehension
`qkernel_matrix`. -/
theorem C9_construct_eq_qkernel_matrix {α β : Type} (k : α → α → β)
    (X1 X2 : List α) :
    construct_K_matrix (kernel_values k X1 X2) X1 X2 =
      some (qkernel_matrix k X1 X2) :=
  construct_kernel_values_eq k X1 X2

/-! ## Claim C5 -/

/-- C5 counterexample: a flat sequence whose length (here 1) does not match
the product of the two set sizes (here 2 × 1) makes `construct_K_matrix`
fail with numpy's reshape `ValueError` (modelled by `none`) instead of
silently returning a mis-aligned matrix. -/
theorem C5_length_mismatch_fails :
    construct_K_matrix [(7 : ℕ)] [0, 1] [(0 : ℕ)] = none := by decide

/-- C5 amended: `construct_K_matrix` performs no validation of the ORDERING
of its flat input: every sequence of the correct length `n1 * n2` is
silently reshaped positionally (and two different sequences of correct
length give two different matrices, so a mis-ordered sequence silently
yields a mis-aligned matrix); a sequence of any other length, however,
makes the underlying reshape raise rather than return a matrix. -/
theorem C5_no_ordering_validation {α β γ : Type} (K K' : List α)
    (X1 : List β) (X2 : List γ)
    (hK : K.length = X1.length * X2.length)
    (hK' : K'.length = X1.length * X2.length) :
    (∃ M, construct_K_matrix K X1 X2 = some M) ∧
    (K ≠ K' → construct_K_matrix K X1 X2 ≠ construct_K_matrix K' X1 X2) ∧
    (∀ L : List α, L.length ≠ X1.length * X2.length →
      construct_K_matrix L X1 X2 = none) := by
  refine ⟨⟨reshapeRows X1.length X2.length K, ?_⟩, ?_, ?_⟩
  · unfold construct_K_matrix
    rw [if_pos hK]
  · intro hne hEq
    apply hne
    unfold construct_K_matrix at hEq
    rw [if_pos hK, if_pos hK'] at hEq
    exact reshapeRows_inj hK hK' (Option.some_injective _ hEq)
  · intro L hL
    unfold construct_K_matrix
    rw [if_neg hL]

/-- Witness for C5 amended: two differently ordered sequences of the
correct length 1 × 2 over the sets `[9]` and `[5, 6]`. -/
theorem C5_no_ordering_validation_witness :
    [1, 2].length = [9].length * [5, 6].length ∧
    [2, 1].length = [9].length * [5, 6].length ∧
    ((∃ M, construct_K_matrix [1, 2] [9] [5, 6] = some M) ∧
    ([1, 2] ≠ [2, 1] →
      construct_K_matrix [1, 2] [9] [5, 6] ≠
        construct_K_matrix [2, 1] [9] [5, 6]) ∧
    (∀ L : List ℕ, L.length ≠ [9].length * [5, 6].length →
      construct_K_matrix L [9] [5, 6] = none)) :=
  ⟨by decide, by decide,
    C5_no_ordering_validation [1, 2] [2, 1] [9] [5, 6] (by decide) (by decide)⟩

/-! ## Claim C6 -/

/-- C6 counterexample: the distinct samples `(0, 0)` and `(2π, 0)` encode the
same quantum state (angles are congruent mod `2π` in the outcome
probability), so the circuit's outcome-`00` probability is exactly 1, every
valid 1000-shot record is all-`00`, and the returned value is exactly 1 —
not strictly less than 1. -/
theorem C6_distinct_inputs_can_reach_one :
    ((0 : ℝ), (0 : ℝ)) ≠ (2 * Real.pi, 0) ∧
    qkernel_prob (0, 0) (2 * Real.pi, 0) = 1 ∧
    ValidShots (qkernel_prob (0, 0) (2 * Real.pi, 0)) (fun _ => true) ∧
    qkernel_estimate (fun _ => true) = 1 ∧
    ¬ qkernel_estimate (fun _ => true) < 1 := by
  have hp : qkernel_prob ((0 : ℝ), 0) (2 * Real.pi, 0) = 1 := by
    rw [qkernel_prob_eq]
    have e1 : ((0 : ℝ) - 2 * Real.pi) / 2 = -Real.pi := by ring
    have e2 : ((0 : ℝ) - 0) / 2 = 0 := by ring
    rw [e1, e2, Real.cos_neg, Real.cos_pi, Real.cos_zero]
    norm_num
  have hall : qkernel_estimate (fun _ => true) = 1 :=
    qkernel_estimate_all_true _ fun _ => rfl
  refine ⟨?_, hp, ⟨fun _ _ => rfl, fun h0 => ?_⟩, hall, ?_⟩
  · intro hEq
    have h1 : (0 : ℝ) = 2 * Real.pi := congrArg Prod.fst hEq
    have hpi := Real.pi_pos
    linarith
  · rw [hp] at h0
    exact absurd h0 one_ne_zero
  · rw [hall]
    exact lt_irrefl 1

/-- C6 amended: for every pair of distinct samples, both the exact
outcome-`00` probability and every finite-shot estimate the circuit can
return lie in the CLOSED interval `[0, 1]`; the value 1 is attainable for
distinct inputs (see the counterexample), so the half-open bound fails. -/
theorem C6_kernel_range (x1 x2 : ℝ × ℝ) (_h : x1 ≠ x2)
    (o : Fin shots → Bool) :
    (0 ≤ qkernel_prob x1 x2 ∧ qkernel_prob x1 x2 ≤ 1) ∧
    (0 ≤ qkernel_estimate o ∧ qkernel_estimate o ≤ 1) :=
  ⟨⟨qkernel_prob_nonneg _ _, qkernel_prob_le_one _ _⟩,
   ⟨qkernel_estimate_nonneg o, qkernel_estimate_le_one o⟩⟩

/-- Witness for C6 amended at the distinct pair `(0,0)`, `(1,0)` and an
all-`00` shot record. -/
theorem C6_kernel_range_witness :
    ((0 : ℝ), (0 : ℝ)) ≠ (1, 0) ∧
    ((0 ≤ qkernel_prob (0, 0) (1, 0) ∧ qkernel_prob (0, 0) (1, 0) ≤ 1) ∧
     (0 ≤ qkernel_estimate (fun _ => true) ∧
      qkernel_estimate (fun _ => true) ≤ 1)) :=
  ⟨by simp [Prod.ext_iff], C6_kernel_range (0, 0) (1, 0)
    (by simp [Prod.ext_iff]) (fun _ => true)⟩

/-! ## Claim C7 -/

/-- C7: on equal inputs the circuit's outcome-`00` probability is exactly 1,
so every valid 1000-shot record is all-`00` and the returned estimate is
exactly 1 — in particular within any sampling-noise tolerance of 1. -/
theorem C7_kernel_self_is_one (x : ℝ × ℝ) (o : Fin shots → Bool)
    (h : ValidShots (qkernel_prob x x) o) :
    qkernel_prob x x = 1 ∧ qkernel_estimate o = 1 :=
  ⟨qkernel_prob_self x,
   qkernel_estimate_all_true o (h.1 (qkernel_prob_self x))⟩

/-- Witness for C7 at the sample `(0, 0)` with the (forced) all-`00`
record. -/
theorem C7_kernel_self_is_one_witness :
    ValidShots (qkernel_prob (0, 0) (0, 0)) (fun _ => true) ∧
    (qkernel_prob ((0 : ℝ), 0) (0, 0) = 1 ∧
     qkernel_estimate (fun _ => true) = 1) :=
  ⟨⟨fun _ _ => rfl, fun h0 => by
      rw [qkernel_prob_self] at h0
      exact absurd h0 one_ne_zero⟩,
   C7_kernel_self_is_one (0, 0) (fun _ => true)
    ⟨fun _ _ => rfl, fun h0 => by
      rw [qkernel_prob_self] at h0
      exact absurd h0 one_ne_zero⟩⟩

/-! ## Claim C8 -/

/-- C8: the circuit's outcome distribution is exactly symmetric under
operand swap (`p(x1,x2) = p(x2,x1)`), and consequently any two finite-shot
estimates of the two operand orders agree within the sum of their sampling
deviations from the common probability. -/
theorem C8_kernel_symmetric (x1 x2 : ℝ × ℝ) (o1 o2 : Fin shots → Bool)
    (e1 e2 : ℝ)
    (h1 : |qkernel_estimate o1 - qkernel_prob x1 x2| ≤ e1)
    (h2 : |qkernel_estimate o2 - qkernel_prob x2 x1| ≤ e2) :
    qkernel_prob x1 x2 = qkernel_prob x2 x1 ∧
    |qkernel_estimate o1 - qkernel_estimate o2| ≤ e1 + e2 := by
  have hsym : qkernel_prob x1 x2 = qkernel_prob x2 x1 := by
    rw [qkernel_prob_eq, qkernel_prob_eq]
    have ea : (x2.1 - x1.1) / 2 = -((x1.1 - x2.1) / 2) := by ring
    have eb : (x2.2 - x1.2) / 2 = -((x1.2 - x2.2) / 2) := by ring
    rw [ea, eb, Real.cos_neg, Real.cos_neg]
  refine ⟨hsym, ?_⟩
  rw [hsym] at h1
  calc |qkernel_estimate o1 - qkernel_estimate o2|
      ≤ |qkernel_estimate o1 - qkernel_prob x2 x1| +
        |qkernel_prob x2 x1 - qkernel_estimate o2| :=
        abs_sub_le _ _ _
    _ = |qkernel_estimate o1 - qkernel_prob x2 x1| +
        |qkernel_estimate o2 - qkernel_prob x2 x1| := by
        rw [abs_sub_comm (qkernel_prob x2 x1)]
    _ ≤ e1 + e2 := add_le_add h1 h2

/-- Witness for C8 at equal samples with all-`00` records and zero
tolerances. -/
theorem C8_kernel_symmetric_witness :
    |qkernel_estimate (fun _ => true) - qkernel_prob ((0 : ℝ), 0) (0, 0)| ≤ 0 ∧
    (qkernel_prob ((0 : ℝ), 0) (0, 0) = qkernel_prob (0, 0) (0, 0) ∧
     |qkernel_estimate (fun _ => true) - qkernel_estimate (fun _ => true)| ≤
       0 + 0) := by
  have hd : |qkernel_estimate (fun _ => true) -
      qkernel_prob ((0 : ℝ), 0) (0, 0)| ≤ 0 := by
    rw [qkernel_estimate_all_true _ fun _ => rfl, qkernel_prob_self]
    simp
  exact ⟨hd, C8_kernel_symmetric (0, 0) (0, 0) (fun _ => true) (fun _ => true)
    0 0 hd hd⟩

/-! ## Lemmas about the split primitive -/

theorem range_filterMap_get? {α : Type} (X : List α) :
    ((List.range X.length).filterMap fun i => X.get? i) = X := by
  induction X with
  | nil => rfl
  | cons x xs ih =>
    rw [List.length_cons, List.range_succ_eq_map, List.filterMap_cons,
      List.filterMap_map]
    simp only [List.get?_cons_zero, Function.comp_def, List.get?_cons_succ]
    rw [ih]

theorem perm_filterMap_get? {α : Type} (X : List α) {idx : List ℕ}
    (h : idx.Perm (List.range X.length)) :
    (idx.filterMap fun i => X.get? i).Perm X :=
  (h.filterMap _).trans (by rw [range_filterMap_get? X])

theorem subperm_filterMap_get? {α : Type} (X : List α) {idx : List ℕ}
    (h : idx.Subperm (List.range X.length)) :
    (idx.filterMap fun i => X.get? i).Subperm X := by
  obtain ⟨l, hl1, hl2⟩ := h
  refine ⟨l.filterMap fun i => X.get? i, hl1.filterMap _, ?_⟩
  have hsub := hl2.filterMap fun i => X.get? i
  rwa [range_filterMap_get? X] at hsub

theorem length_filterMap_get? {α : Type} (X : List α) {idx : List ℕ}
    (h : ∀ i ∈ idx, i < X.length) :
    (idx.filterMap fun i => X.get? i).length = idx.length := by
  induction idx with
  | nil => rfl
  | cons i rest ih =>
    have hi : i < X.length := h i (List.mem_cons_self i rest)
    rw [List.filterMap_cons, List.get?_eq_get hi]
    simp only [List.length_cons]
    rw [ih fun j hj => h j (List.mem_cons_of_mem i hj)]

theorem sk_tts_append_perm {α β : Type} (split : SplitFn) (g : ℕ)
    (rs : Option ℕ) (ts : ℚ) (X : List α) (y : List β)
    (H : (((split (rs.getD g) ts X.length).1 ++
      (split (rs.getD g) ts X.length).2)).Perm (List.range X.length))
    (Hxy : y.length = X.length) :
    ((sk_train_test_split split g rs ts X y).1 ++
      (sk_train_test_split split g rs ts X y).2.1).Perm X ∧
    ((sk_train_test_split split g rs ts X y).2.2.1 ++
      (sk_train_test_split split g rs ts X y).2.2.2).Perm y := by
  constructor
  · show ((((split (rs.getD g) ts X.length).1).filterMap fun i => X.get? i) ++
      (((split (rs.getD g) ts X.length).2).filterMap fun i => X.get? i)).Perm X
    rw [← List.filterMap_append]
    exact perm_filterMap_get? X H
  · show ((((split (rs.getD g) ts X.length).1).filterMap fun i => y.get? i) ++
      (((split (rs.getD g) ts X.length).2).filterMap fun i => y.get? i)).Perm y
    rw [← List.filterMap_append]
    apply perm_filterMap_get? y
    rw [Hxy]
    exact H

theorem sk_tts_test_subperm {α β : Type} (split : SplitFn) (g : ℕ)
    (rs : Option ℕ) (ts : ℚ) (X : List α) (y : List β)
    (H : (((split (rs.getD g) ts X.length).1 ++
      (split (rs.getD g) ts X.length).2)).Perm (List.range X.length)) :
    (sk_train_test_split split g rs ts X y).2.1.Subperm X := by
  show (((split (rs.getD g) ts X.length).2).filterMap
    fun i => X.get? i).Subperm X
  apply subperm_filterMap_get? X
  exact ((List.sublist_append_right _ _).subperm).trans H.subperm

theorem sk_tts_test_lengths {α β : Type} (split : SplitFn) (g : ℕ)
    (rs : Option ℕ) (ts : ℚ) (X : List α) (y : List β)
    (H : (((split (rs.getD g) ts X.length).1 ++
      (split (rs.getD g) ts X.length).2)).Perm (List.range X.length))
    (Hxy : y.length = X.length) :
    (sk_train_test_split split g rs ts X y).2.1.length =
      (sk_train_test_split split g rs ts X y).2.2.2.length := by
  have hmem : ∀ i ∈ (split (rs.getD g) ts X.length).2, i < X.length :=
    fun i hi => List.mem_range.mp
      (H.mem_iff.mp (List.mem_append_right _ hi))
  show (((split (rs.getD g) ts X.length).2).filterMap
      fun i => X.get? i).length =
    (((split (rs.getD g) ts X.length).2).filterMap
      fun i => y.get? i).length
  rw [length_filterMap_get? X hmem,
    length_filterMap_get? y fun i hi => Hxy ▸ hmem i hi]

/-! ## Claim C3 -/

/-- C3: with the fixed `RANDOM_SEED` baked into both internal
`train_test_split` calls, `partition_data` is independent of the ambient
global RNG state, so repeated calls on the same input return identical
splits (the same holds for the tutorial variant); moreover, assuming
sklearn's contract for each internal split call (the train/test index
blocks partition the row range — hypotheses `H1`, `H2` — and stratification
keeps each class count within 1 of its proportional target — hypotheses
`H3`, `H4`), the returned train and test subsets are disjoint parts of one
sub-permutation of the input, and the test-set class counts stay within 2
of exact proportionality to the input class counts. -/
theorem C3_partition_deterministic_disjoint_stratified {α : Type}
    (split : SplitFn) (g : ℕ) (X : List α) (y : List ℕ)
    (Hxy : y.length = X.length)
    (H1 : SplitsRange split RANDOM_SEED
      ((N_TOT : ℚ) / (X.length : ℚ)) X.length)
    (H2 : SplitsRange split RANDOM_SEED ((N_TEST : ℚ) / (N_TOT : ℚ))
      (partition_stage1 split g X y).2.1.length)
    (H3 : ∀ c, |(((partition_stage1 split g X y).2.2.2.count c : ℚ)) -
      (N_TOT : ℚ) / (X.length : ℚ) * (y.count c : ℚ)| ≤ 1)
    (H4 : ∀ c, |(((partition_data split g X y).2.2.2.count c : ℚ)) -
      (N_TEST : ℚ) / (N_TOT : ℚ) *
        ((partition_stage1 split g X y).2.2.2.count c : ℚ)| ≤ 1) :
    (∀ g', partition_data split g X y = partition_data split g' X y ∧
      partition_data_tutorial split g X y =
        partition_data_tutorial split g' X y) ∧
    ((partition_data split g X y).1 ++
      (partition_data split g X y).2.1).Perm
        (partition_stage1 split g X y).2.1 ∧
    ((partition_data split g X y).2.2.1 ++
      (partition_data split g X y).2.2.2).Perm
        (partition_stage1 split g X y).2.2.2 ∧
    ((partition_data split g X y).1 ++
      (partition_data split g X y).2.1).Subperm X ∧
    (∀ c, |(((partition_data split g X y).2.2.2.count c : ℚ)) -
      (N_TEST : ℚ) / (X.length : ℚ) * (y.count c : ℚ)| ≤ 2) := by
  have hy0len : (partition_stage1 split g X y).2.2.2.length =
      (partition_stage1 split g X y).2.1.length :=
    (sk_tts_test_lengths split g (some RANDOM_SEED)
      ((N_TOT : ℚ) / (X.length : ℚ)) X y H1 Hxy).symm
  have hperm := sk_tts_append_perm split g (some RANDOM_SEED)
    ((N_TEST : ℚ) / (N_TOT : ℚ)) (partition_stage1 split g X y).2.1
    (partition_stage1 split g X y).2.2.2 H2 hy0len
  have hX0sub : (partition_stage1 split g X y).2.1.Subperm X :=
    sk_tts_test_subperm split g (some RANDOM_SEED)
      ((N_TOT : ℚ) / (X.length : ℚ)) X y H1
  refine ⟨fun g' => ⟨rfl, rfl⟩, hperm.1, hperm.2, ?_, ?_⟩
  · exact (hperm.1.subperm).trans hX0sub
  · intro c
    have h3 := H3 c
    have h4 := H4 c
    have hfrac : (N_TEST : ℚ) / (N_TOT : ℚ) *
        ((N_TOT : ℚ) / (X.length : ℚ)) = (N_TEST : ℚ) / (X.length : ℚ) := by
      rw [div_mul_div_comm, mul_comm (N_TEST : ℚ) (N_TOT : ℚ),
        mul_div_mul_left _ _ (by norm_num [N_TOT, N_TEST, N_TRAIN] :
          (N_TOT : ℚ) ≠ 0)]
    have hts2 : (0 : ℚ) ≤ (N_TEST : ℚ) / (N_TOT : ℚ) := by positivity
    have hts2le : (N_TEST : ℚ) / (N_TOT : ℚ) ≤ 1 := by
      norm_num [N_TEST, N_TOT, N_TRAIN]
    set a := ((partition_data split g X y).2.2.2.count c : ℚ)
    set b := ((partition_stage1 split g X y).2.2.2.count c : ℚ)
    set d := (y.count c : ℚ)
    have key : a - (N_TEST : ℚ) / (X.length : ℚ) * d =
        (a - (N_TEST : ℚ) / (N_TOT : ℚ) * b) +
        (N_TEST : ℚ) / (N_TOT : ℚ) * (b - (N_TOT : ℚ) / (X.length : ℚ) * d)
        := by
      rw [← hfrac]; ring
    calc |a - (N_TEST : ℚ) / (X.length : ℚ) * d|
        ≤ |a - (N_TEST : ℚ) / (N_TOT : ℚ) * b| +
          |(N_TEST : ℚ) / (N_TOT : ℚ) *
            (b - (N_TOT : ℚ) / (X.length : ℚ) * d)| := by
          rw [key]; exact abs_add _ _
      _ = |a - (N_TEST : ℚ) / (N_TOT : ℚ) * b| +
          (N_TEST : ℚ) / (N_TOT : ℚ) *
            |b - (N_TOT : ℚ) / (X.length : ℚ) * d| := by
          rw [abs_mul, abs_of_nonneg hts2]
      _ ≤ 1 + 1 :=
          add_le_add h4 (mul_le_one₀ hts2le (abs_nonneg _) h3)
      _ = 2 := by norm_num

/-- A concrete split primitive used to instantiate the partition theorem: it
puts every index into the test block (a legal degenerate shuffle). -/
def witSplit : SplitFn := fun _ _ n => ([], List.range n)

/-- Witness for C3 on the input `X = [5,6,7,8]`, `y = [0,1,2,3]` with the
concrete split primitive `witSplit` (stage 1 keeps everything, stage 2
reserves index 0 for the test set). -/
theorem C3_partition_witness :
    ([0, 1, 2, 3] : List ℕ).length = ([5, 6, 7, 8] : List ℕ).length ∧
    SplitsRange witSplit RANDOM_SEED
      ((N_TOT : ℚ) / (([5, 6, 7, 8] : List ℕ).length : ℚ))
      ([5, 6, 7, 8] : List ℕ).length ∧
    SplitsRange witSplit RANDOM_SEED ((N_TEST : ℚ) / (N_TOT : ℚ))
      (partition_stage1 witSplit 0 [5, 6, 7, 8] [0, 1, 2, 3]).2.1.length ∧
    (∀ c, |(((partition_stage1 witSplit 0 [5, 6, 7, 8]
        [0, 1, 2, 3]).2.2.2.count c : ℚ)) -
      (N_TOT : ℚ) / (([5, 6, 7, 8] : List ℕ).length : ℚ) *
        (([0, 1, 2, 3] : List ℕ).count c : ℚ)| ≤ 1) ∧
    (∀ c, |(((partition_data witSplit 0 [5, 6, 7, 8]
        [0, 1, 2, 3]).2.2.2.count c : ℚ)) -
      (N_TEST : ℚ) / (N_TOT : ℚ) *
        ((partition_stage1 witSplit 0 [5, 6, 7, 8]
          [0, 1, 2, 3]).2.2.2.count c : ℚ)| ≤ 1) ∧
    ((∀ g', partition_data witSplit 0 [5, 6, 7, 8] [0, 1, 2, 3] =
        partition_data witSplit g' [5, 6, 7, 8] [0, 1, 2, 3] ∧
      partition_data_tutorial witSplit 0 [5, 6, 7, 8] [0, 1, 2, 3] =
        partition_data_tutorial witSplit g' [5, 6, 7, 8] [0, 1, 2, 3]) ∧
    ((partition_data witSplit 0 [5, 6, 7, 8] [0, 1, 2, 3]).1 ++
      (partition_data witSplit 0 [5, 6, 7, 8] [0, 1, 2, 3]).2.1).Perm
        (partition_stage1 witSplit 0 [5, 6, 7, 8] [0, 1, 2, 3]).2.1 ∧
    ((partition_data witSplit 0 [5, 6, 7, 8] [0, 1, 2, 3]).2.2.1 ++
      (partition_data witSplit 0 [5, 6, 7, 8] [0, 1, 2, 3]).2.2.2).Perm
        (partition_stage1 witSplit 0 [5, 6, 7, 8] [0, 1, 2, 3]).2.2.2 ∧
    ((partition_data witSplit 0 [5, 6, 7, 8] [0, 1, 2, 3]).1 ++
      (partition_data witSplit 0 [5, 6, 7, 8] [0, 1, 2, 3]).2.1).Subperm
        [5, 6, 7, 8] ∧
    (∀ c, |(((partition_data witSplit 0 [5, 6, 7, 8]
        [0, 1, 2, 3]).2.2.2.count c : ℚ)) -
      (N_TEST : ℚ) / (([5, 6, 7, 8] : List ℕ).length : ℚ) *
        (([0, 1, 2, 3] : List ℕ).count c : ℚ)| ≤ 2)) := by
  have hred1 : (partition_stage1 witSplit 0 [5, 6, 7, 8]
      [0, 1, 2, 3]).2.2.2 = [0, 1, 2, 3] := by decide
  have hred2 : (partition_data witSplit 0 [5, 6, 7, 8]
      [0, 1, 2, 3]).2.2.2 = [0, 1, 2, 3] := by decide
  have hnodup4 : ∀ c, List.count c [0, 1, 2, 3] ≤ 1 :=
    List.nodup_iff_count_le_one.mp (by decide)
  have hts1 : (N_TOT : ℚ) / ((([5, 6, 7, 8] : List ℕ).length : ℕ) : ℚ) =
      2 := by
    norm_num [N_TOT, N_TEST, N_TRAIN]
  have hts2 : (N_TEST : ℚ) / (N_TOT : ℚ) = 1 / 4 := by
    norm_num [N_TOT, N_TEST, N_TRAIN]
  have h3 : ∀ c, |(((partition_stage1 witSplit 0 [5, 6, 7, 8]
      [0, 1, 2, 3]).2.2.2.count c : ℚ)) -
      (N_TOT : ℚ) / (([5, 6, 7, 8] : List ℕ).length : ℚ) *
        (([0, 1, 2, 3] : List ℕ).count c : ℚ)| ≤ 1 := by
    intro c
    rw [hred1, hts1]
    have hc := hnodup4 c
    have hc' : ((List.count c [0, 1, 2, 3] : ℕ) : ℚ) ≤ 1 := by
      exact_mod_cast hc
    have hc0 : (0 : ℚ) ≤ ((List.count c [0, 1, 2, 3] : ℕ) : ℚ) := by
      positivity
    rw [abs_le]
    constructor <;> linarith
  have h4 : ∀ c, |(((partition_data witSplit 0 [5, 6, 7, 8]
      [0, 1, 2, 3]).2.2.2.count c : ℚ)) -
      (N_TEST : ℚ) / (N_TOT : ℚ) *
        ((partition_stage1 witSplit 0 [5, 6, 7, 8]
          [0, 1, 2, 3]).2.2.2.count c : ℚ)| ≤ 1 := by
    intro c
    rw [hred1, hred2, hts2]
    have hb := hnodup4 c
    have hb' : ((List.count c [0, 1, 2, 3] : ℕ) : ℚ) ≤ 1 := by
      exact_mod_cast hb
    have hb0 : (0 : ℚ) ≤ ((List.count c [0, 1, 2, 3] : ℕ) : ℚ) := by
      positivity
    rw [abs_le]
    constructor <;> linarith
  exact ⟨rfl, by decide, by decide, h3, h4,
    C3_partition_deterministic_disjoint_stratified witSplit 0
      [5, 6, 7, 8] [0, 1, 2, 3] rfl (by decide) (by decide) h3 h4⟩

/-! ## Lemmas about the scaler -/

section ScalerLemmas

variable {F : Type} [LinearOrderedField F]

theorem foldl_min_le_init (l : List F) (a : F) : l.foldl min a ≤ a := by
  induction l generalizing a with
  | nil => simp
  | cons x xs ih => exact le_trans (ih (min a x)) (min_le_left a x)

theorem foldl_min_le_mem (l : List F) (a : F) : ∀ v ∈ l, l.foldl min a ≤ v := by
  induction l generalizing a with
  | nil => intro v hv; simp at hv
  | cons x xs ih =>
    intro v hv
    rcases List.mem_cons.mp hv with rfl | hv
    · exact le_trans (foldl_min_le_init xs (min a v)) (min_le_right a v)
    · exact ih (min a x) v hv

theorem init_le_foldl_max (l : List F) (a : F) : a ≤ l.foldl max a := by
  induction l generalizing a with
  | nil => simp
  | cons x xs ih => exact le_trans (le_max_left a x) (ih (max a x))

theorem mem_le_foldl_max (l : List F) (a : F) : ∀ v ∈ l, v ≤ l.foldl max a := by
  induction l generalizing a with
  | nil => intro v hv; simp at hv
  | cons x xs ih =>
    intro v hv
    rcases List.mem_cons.mp hv with rfl | hv
    · exact le_trans (le_max_right a v) (init_le_foldl_max xs (max a v))
    · exact ih (max a x) v hv

theorem listMin_le (col : List F) : ∀ v ∈ col, listMin col ≤ v := by
  intro v hv
  cases col with
  | nil => simp at hv
  | cons x xs =>
    rcases List.mem_cons.mp hv with rfl | hv
    · exact foldl_min_le_init xs v
    · exact foldl_min_le_mem xs x v hv

theorem le_listMax (col : List F) : ∀ v ∈ col, v ≤ listMax col := by
  intro v hv
  cases col with
  | nil => simp at hv
  | cons x xs =>
    rcases List.mem_cons.mp hv with rfl | hv
    · exact init_le_foldl_max xs v
    · exact mem_le_foldl_max xs x v hv

theorem scaleCol_bounds (hi : F) (h0 : 0 ≤ hi) (col : List F) :
    ∀ v ∈ scaleCol hi col, 0 ≤ v ∧ v ≤ hi := by
  intro v hv
  simp only [scaleCol, List.mem_map] at hv
  obtain ⟨w, hw, rfl⟩ := hv
  have h1 : listMin col ≤ w := listMin_le col w hw
  have h2 : w ≤ listMax col := le_listMax col w hw
  by_cases hr : listMax col - listMin col = 0
  · have hw0 : w - listMin col = 0 := by linarith
    rw [hw0, zero_mul]
    exact ⟨le_refl 0, h0⟩
  · have hrpos : 0 < listMax col - listMin col :=
      lt_of_le_of_ne (by linarith) (Ne.symm hr)
    rw [handleZero, if_neg hr]
    constructor
    · exact mul_nonneg (by linarith) (by positivity)
    · calc (w - listMin col) * (hi / (listMax col - listMin col))
          ≤ (listMax col - listMin col) *
            (hi / (listMax col - listMin col)) :=
            mul_le_mul_of_nonneg_right (by linarith) (by positivity)
        _ = hi := by
            rw [mul_comm, div_mul_cancel₀ hi hr]

theorem minmax_transform_bounds (hi : F) (h0 : 0 ≤ hi)
    (X : List (List F)) :
    ∀ r ∈ minmax_transform hi X, ∀ v ∈ r, 0 ≤ v ∧ v ≤ hi := by
  intro r hr v hv
  simp only [minmax_transform, List.mem_map] at hr
  obtain ⟨⟨p1, p2⟩, hp, rfl⟩ := hr
  have hz := List.of_mem_zip hp
  rcases List.mem_cons.mp hv with rfl | hv'
  · exact scaleCol_bounds hi h0 _ v hz.1
  · rcases List.mem_cons.mp hv' with rfl | hv''
    · exact scaleCol_bounds hi h0 _ v hz.2
    · simp at hv''

theorem minmax_transform_length (hi : F) (X : List (List F)) :
    (minmax_transform hi X).length = X.length := by
  simp [minmax_transform, scaleCol]

theorem minmax_transform_row_length (hi : F) (X : List (List F)) :
    ∀ r ∈ minmax_transform hi X, r.length = 2 := by
  intro r hr
  simp only [minmax_transform, List.mem_map] at hr
  obtain ⟨⟨p1, p2⟩, _, rfl⟩ := hr
  rfl

end ScalerLemmas

/-! ## Claim C4 -/

/-- C4 amended: the features returned by `get_data` are rescaled into the
CLOSED interval `[0, twoPi]` — the upper endpoint is attained (each
column's maximum is mapped to exactly `twoPi`, see the counterexample) —
and the returned labels are restricted to the class subset `{0, 1}`. -/
theorem C4_get_data_range {F : Type} [LinearOrderedField F] (twoPi : F)
    (h0 : 0 ≤ twoPi) (raw : List (List F) × List ℕ) (r : List F) (v : F)
    (l : ℕ) (hr : r ∈ (get_data twoPi raw).1) (hv : v ∈ r)
    (hl : l ∈ (get_data twoPi raw).2) :
    (0 ≤ v ∧ v ≤ twoPi) ∧ l < 2 := by
  constructor
  · exact minmax_transform_bounds twoPi h0 _ r hr v hv
  · simp only [get_data, filter_classes, List.mem_map] at hl
    obtain ⟨p, hp, rfl⟩ := hl
    have := (List.mem_filter.mp hp).2
    simpa using this

/-- Witness for C4 amended on a concrete 2-row raw dataset over `ℚ` with
scale bound 7. -/
theorem C4_get_data_range_witness :
    (0 : ℚ) ≤ 7 ∧
    [0, 0] ∈ (get_data (7 : ℚ)
      ([[0, 0, 0, 0, 0, 0, 0, 0, 0, 0, 0],
        [0, 0, 0, 0, 0, 0, 0, 0, 0, 1, 1]], [0, 1])).1 ∧
    (0 : ℚ) ∈ ([0, 0] : List ℚ) ∧
    1 ∈ (get_data (7 : ℚ)
      ([[0, 0, 0, 0, 0, 0, 0, 0, 0, 0, 0],
        [0, 0, 0, 0, 0, 0, 0, 0, 0, 1, 1]], [0, 1])).2 ∧
    ((0 ≤ (0 : ℚ) ∧ (0 : ℚ) ≤ 7) ∧ 1 < 2) := by
  have hdata : get_data (7 : ℚ)
      ([[0, 0, 0, 0, 0, 0, 0, 0, 0, 0, 0],
        [0, 0, 0, 0, 0, 0, 0, 0, 0, 1, 1]], [0, 1]) =
      ([[0, 0], [7, 7]], [0, 1]) := by
    simp only [get_data, select_columns, filter_classes, minmax_transform,
      scaleCol, listMin, listMax, handleZero, List.map_cons, List.map_nil,
      List.getD_cons_zero, List.getD_cons_succ, List.zip_cons_cons,
      List.zip_nil_right, List.filter_cons, List.filter_nil,
      List.foldl_cons, List.foldl_nil]
    norm_num [min_def, max_def]
  have hr : ([0, 0] : List ℚ) ∈ (get_data (7 : ℚ)
      ([[0, 0, 0, 0, 0, 0, 0, 0, 0, 0, 0],
        [0, 0, 0, 0, 0, 0, 0, 0, 0, 1, 1]], [0, 1])).1 := by
    rw [hdata]; simp
  have hl : 1 ∈ (get_data (7 : ℚ)
      ([[0, 0, 0, 0, 0, 0, 0, 0, 0, 0, 0],
        [0, 0, 0, 0, 0, 0, 0, 0, 0, 1, 1]], [0, 1])).2 := by
    rw [hdata]; simp
  exact ⟨by norm_num, hr, by simp, hl,
    C4_get_data_range (7 : ℚ) (by norm_num) _ [0, 0] 0 1 hr (by simp) hl⟩

/-- C4 counterexample: on a 2-row raw dataset, the actual scaler constant
`2π` is ATTAINED by the entry at the column maximum, so not every returned
feature value is strictly below `2π` — the codomain is `[0, 2π]`, not
`[0, 2π)`. -/
theorem C4_upper_endpoint_attained :
    ∃ r ∈ (get_data (2 * Real.pi)
      ([[0, 0, 0, 0, 0, 0, 0, 0, 0, 0, 0],
        [0, 0, 0, 0, 0, 0, 0, 0, 0, 1, 1]], [0, 1])).1,
      ∃ v ∈ r, ¬ v < 2 * Real.pi := by
  have hdata : get_data (2 * Real.pi)
      ([[0, 0, 0, 0, 0, 0, 0, 0, 0, 0, 0],
        [0, 0, 0, 0, 0, 0, 0, 0, 0, 1, 1]], [0, 1]) =
      ([[0, 0], [2 * Real.pi, 2 * Real.pi]], [0, 1]) := by
    simp only [get_data, select_columns, filter_classes, minmax_transform,
      scaleCol, listMin, listMax, handleZero, List.map_cons, List.map_nil,
      List.getD_cons_zero, List.getD_cons_succ, List.zip_cons_cons,
      List.zip_nil_right, List.filter_cons, List.filter_nil,
      List.foldl_cons, List.foldl_nil]
    norm_num [min_def, max_def]
  rw [hdata]
  exact ⟨[2 * Real.pi, 2 * Real.pi], by simp, 2 * Real.pi, by simp,
    lt_irrefl _⟩

/-! ## Claim C10 -/

/-- C10: the challenge `get_data` always returns rows of exactly 2 features,
a label vector with the same number of rows as the feature matrix (both
arrays are masked by the same class filter), and labels only from
`{0, 1}`. -/
theorem C10_get_data_shape_invariant {F : Type} [LinearOrderedField F]
    (twoPi : F) (raw : List (List F) × List ℕ)
    (_hlen : raw.1.length = raw.2.length) :
    (get_data twoPi raw).1.length = (get_data twoPi raw).2.length ∧
    (∀ r ∈ (get_data twoPi raw).1, r.length = 2) ∧
    (∀ l ∈ (get_data twoPi raw).2, l = 0 ∨ l = 1) := by
  refine ⟨?_, ?_, ?_⟩
  · show (minmax_transform twoPi (filter_classes
        (select_columns raw.1) raw.2).1).length =
      (filter_classes (select_columns raw.1) raw.2).2.length
    rw [minmax_transform_length]
    simp [filter_classes]
  · exact minmax_transform_row_length twoPi _
  · intro l hl
    simp only [get_data, filter_classes, List.mem_map] at hl
    obtain ⟨p, hp, rfl⟩ := hl
    have := (List.mem_filter.mp hp).2
    have hlt : p.2 < 2 := by simpa using this
    omega

/-- Witness for C10 on a concrete raw dataset over `ℚ` containing a
filtered-out third class. -/
theorem C10_get_data_shape_invariant_witness :
    ([[0, 0, 0, 0, 0, 0, 0, 0, 0, 0, 0],
      [0, 0, 0, 0, 0, 0, 0, 0, 0, 1, 1],
      [0, 0, 0, 0, 0, 0, 0, 0, 0, 2, 2]] : List (List ℚ)).length =
      ([0, 1, 2] : List ℕ).length ∧
    ((get_data (7 : ℚ) ([[0, 0, 0, 0, 0, 0, 0, 0, 0, 0, 0],
        [0, 0, 0, 0, 0, 0, 0, 0, 0, 1, 1],
        [0, 0, 0, 0, 0, 0, 0, 0, 0, 2, 2]], [0, 1, 2])).1.length =
      (get_data (7 : ℚ) ([[0, 0, 0, 0, 0, 0, 0, 0, 0, 0, 0],
        [0, 0, 0, 0, 0, 0, 0, 0, 0, 1, 1],
        [0, 0, 0, 0, 0, 0, 0, 0, 0, 2, 2]], [0, 1, 2])).2.length ∧
    (∀ r ∈ (get_data (7 : ℚ) ([[0, 0, 0, 0, 0, 0, 0, 0, 0, 0, 0],
        [0, 0, 0, 0, 0, 0, 0, 0, 0, 1, 1],
        [0, 0, 0, 0, 0, 0, 0, 0, 0, 2, 2]], [0, 1, 2])).1, r.length = 2) ∧
    (∀ l ∈ (get_data (7 : ℚ) ([[0, 0, 0, 0, 0, 0, 0, 0, 0, 0, 0],
        [0, 0, 0, 0, 0, 0, 0, 0, 0, 1, 1],
        [0, 0, 0, 0, 0, 0, 0, 0, 0, 2, 2]], [0, 1, 2])).2,
      l = 0 ∨ l = 1)) :=
  ⟨rfl, C10_get_data_shape_invariant (7 : ℚ)
    ([[0, 0, 0, 0, 0, 0, 0, 0, 0, 0, 0],
      [0, 0, 0, 0, 0, 0, 0, 0, 0, 1, 1],
      [0, 0, 0, 0, 0, 0, 0, 0, 0, 2, 2]], [0, 1, 2]) rfl⟩

/-! ## Lemmas for the workflow theorem -/

theorem range_map_getD {α : Type} (l : List α) (d : α) :
    (List.range l.length).map (fun i => l.getD i d) = l := by
  induction l with
  | nil => rfl
  | cons x xs ih =>
    rw [List.length_cons, List.range_succ_eq_map, List.map_cons,
      List.map_map]
    simp only [List.getD_cons_zero, Function.comp_def, List.getD_cons_succ]
    rw [ih]

theorem kernel_values_idx_eq {F : Type} [LinearOrderedField F]
    (k : List F → List F → F) (X1 X2 : List (List F)) :
    kernel_values_idx k X1 X2 X1.length X2.length =
      kernel_values k X1 X2 := by
  unfold kernel_values_idx kernel_values
  have inner : ∀ x : List F,
      (List.range X2.length).map (fun j => k x (X2.getD j [])) =
        X2.map (k x) := by
    intro x
    calc (List.range X2.length).map (fun j => k x (X2.getD j []))
        = ((List.range X2.length).map (fun j => X2.getD j [])).map (k x) := by
          rw [List.map_map]; rfl
      _ = X2.map (k x) := by rw [range_map_getD]
  calc (List.range X1.length).flatMap
        (fun i => (List.range X2.length).map
          fun j => k (X1.getD i []) (X2.getD j []))
      = (List.range X1.length).flatMap
        (fun i => X2.map (k (X1.getD i []))) := by
        simp only [inner]
    _ = ((List.range X1.length).map (fun i => X1.getD i [])).flatMap
        (fun x => X2.map (k x)) :=
        (List.flatMap_map (fun i => X1.getD i [])
          (fun x => X2.map (k x)) (List.range X1.length)).symm
    _ = X1.flatMap (fun x => X2.map (k x)) := by rw [range_map_getD]

theorem cmLabels_length_of_cover (l : List ℕ) (m : ℕ)
    (hub : ∀ x ∈ l, x < m) (hcov : ∀ c < m, c ∈ l) :
    (cmLabels l).length = m := by
  unfold cmLabels
  rw [List.length_mergeSort]
  have hfs : l.toFinset = Finset.range m := by
    ext a
    simp only [List.mem_toFinset, Finset.mem_range]
    exact ⟨fun h => hub a h, fun h => hcov a h⟩
  have hcard := congrArg Finset.card hfs
  rw [Finset.card_range, List.card_toFinset] at hcard
  exact hcard

theorem confusion_matrix_shape (y_true y_pred : List ℕ) (m : ℕ)
    (hub : ∀ x ∈ y_true ++ y_pred, x < m)
    (hcov : ∀ c < m, c ∈ y_true ++ y_pred) :
    (confusion_matrix y_true y_pred).length = m ∧
    ∀ r ∈ confusion_matrix y_true y_pred, r.length = m := by
  have hlab := cmLabels_length_of_cover (y_true ++ y_pred) m hub hcov
  constructor
  · simp only [confusion_matrix, List.length_map]
    exact hlab
  · intro r hr
    simp only [confusion_matrix, List.mem_map] at hr
    obtain ⟨t, _, rfl⟩ := hr
    simp only [List.length_map]
    exact hlab

/-! ## Claim C2 -/

/-- C2: in the challenge pipeline, whenever the partition yields 6 training
and 2 test samples (as arranged by the notebook's settings), the workflow
assembles a (6, 6) training kernel matrix and a (2, 6) test kernel matrix,
returns a predicted label vector of length 2, and — the SVC predicting only
trained classes and the stratified test set containing both classes — a
(2, 2) confusion matrix; in the three-class tutorial variant, a test set
covering the three classes likewise yields a (3, 3) confusion matrix. -/
theorem C2_workflow_shapes {F : Type} [LinearOrderedField F]
    (twoPi : F) (split : SplitFn) (g : ℕ) (raw : List (List F) × List ℕ)
    (k : List F → List F → F)
    (pred : List (List F) → List ℕ → List (List F) → List ℕ)
    (X_train X_test : List (List F)) (y_train y_test : List ℕ)
    (hpart : partition_data split g (get_data twoPi raw).1
      (get_data twoPi raw).2 = (X_train, X_test, y_train, y_test))
    (htr : X_train.length = 6) (hte : X_test.length = 2)
    (hy0 : 0 ∈ y_test) (hy1 : 1 ∈ y_test)
    (hyte : ∀ l ∈ y_test, l < 2)
    (hytr : ∀ l ∈ y_train, l < 2)
    (hpredlen : ∀ A C, (pred A y_train C).length = C.length)
    (hpredmem : ∀ A C l, l ∈ pred A y_train C → l ∈ y_train) :
    (∃ Ktr Kte : List (List F),
      construct_K_matrix (kernel_values_idx k X_train X_train
        N_TRAIN N_TRAIN) X_train X_train = some Ktr ∧
      Ktr.length = 6 ∧ (∀ r ∈ Ktr, r.length = 6) ∧
      construct_K_matrix (kernel_values_idx k X_test X_train
        N_TEST N_TRAIN) X_test X_train = some Kte ∧
      Kte.length = 2 ∧ (∀ r ∈ Kte, r.length = 6) ∧
      workflow twoPi split g raw k pred =
        some ((X_train, X_test, y_train, y_test), pred Ktr y_train Kte,
          confusion_matrix y_test (pred Ktr y_train Kte)) ∧
      (pred Ktr y_train Kte).length = 2 ∧
      (confusion_matrix y_test (pred Ktr y_train Kte)).length = 2 ∧
      (∀ r ∈ confusion_matrix y_test (pred Ktr y_train Kte),
        r.length = 2)) ∧
    (∀ (split' : SplitFn) (g' : ℕ) (raw' : List (List F) × List ℕ)
      (k' : List F → List F → F)
      (pred' : List (List F) → List ℕ → List (List F) → List ℕ)
      (Xtr' Xte' : List (List F)) (ytr' yte' : List ℕ),
      partition_data_tutorial split' g' (get_data_tutorial twoPi raw').1
        (get_data_tutorial twoPi raw').2 = (Xtr', Xte', ytr', yte') →
      0 ∈ yte' → 1 ∈ yte' → 2 ∈ yte' → (∀ l ∈ yte', l < 3) →
      (∀ l ∈ ytr', l < 3) →
      (∀ A C l, l ∈ pred' A ytr' C → l ∈ ytr') →
      (workflow_tutorial twoPi split' g' raw' k' pred').2.2.length = 3 ∧
      ∀ r ∈ (workflow_tutorial twoPi split' g' raw' k' pred').2.2,
        r.length = 3) := by
  constructor
  · have htr' : X_train.length = N_TRAIN := htr
    have hte' : X_test.length = N_TEST := hte
    have hKtrv : kernel_values_idx k X_train X_train N_TRAIN N_TRAIN =
        kernel_values k X_train X_train := by
      rw [← htr']
      exact kernel_values_idx_eq k X_train X_train
    have hKtev : kernel_values_idx k X_test X_train N_TEST N_TRAIN =
        kernel_values k X_test X_train := by
      rw [← htr', ← hte']
      exact kernel_values_idx_eq k X_test X_train
    have hctr := construct_kernel_values_eq k X_train X_train
    have hcte := construct_kernel_values_eq k X_test X_train
    have hKtrlen : (qkernel_matrix k X_train X_train).length = 6 := by
      simp [qkernel_matrix, htr]
    have hKtrrow : ∀ r ∈ qkernel_matrix k X_train X_train, r.length = 6 := by
      intro r hr
      simp only [qkernel_matrix, List.mem_map] at hr
      obtain ⟨x, _, rfl⟩ := hr
      simp [htr]
    have hKtelen : (qkernel_matrix k X_test X_train).length = 2 := by
      simp [qkernel_matrix, hte]
    have hKterow : ∀ r ∈ qkernel_matrix k X_test X_train, r.length = 6 := by
      intro r hr
      simp only [qkernel_matrix, List.mem_map] at hr
      obtain ⟨x, _, rfl⟩ := hr
      simp [htr]
    have hyplen : (pred (qkernel_matrix k X_train X_train) y_train
        (qkernel_matrix k X_test X_train)).length = 2 := by
      rw [hpredlen, hKtelen]
    have hconf := confusion_matrix_shape y_test
      (pred (qkernel_matrix k X_train X_train) y_train
        (qkernel_matrix k X_test X_train)) 2
      (by
        intro x hx
        rcases List.mem_append.mp hx with hx | hx
        · exact hyte x hx
        · exact hytr x (hpredmem _ _ x hx))
      (by
        intro c hc
        rcases (by omega : c = 0 ∨ c = 1) with rfl | rfl
        · exact List.mem_append_left _ hy0
        · exact List.mem_append_left _ hy1)
    refine ⟨qkernel_matrix k X_train X_train,
      qkernel_matrix k X_test X_train, ?_, hKtrlen, hKtrrow, ?_,
      hKtelen, hKterow, ?_, hyplen, hconf.1, hconf.2⟩
    · rw [hKtrv]; exact hctr
    · rw [hKtev]; exact hcte
    · unfold workflow
      simp only [hpart, hKtrv, hKtev, hctr, hcte]
  · intro split' g' raw' k' pred' Xtr' Xte' ytr' yte' hpart'
      hy0' hy1' hy2' hyte' hytr' hpredmem'
    have hwt : (workflow_tutorial twoPi split' g' raw' k' pred').2.2 =
        confusion_matrix yte'
          (pred' (qkernel_matrix k' Xtr' Xtr') ytr'
            (qkernel_matrix k' Xte' Xtr')) := by
      unfold workflow_tutorial
      simp only [hpart']
    rw [hwt]
    exact confusion_matrix_shape yte' _ 3
      (by
        intro x hx
        rcases List.mem_append.mp hx with hx | hx
        · exact hyte' x hx
        · exact hytr' x (hpredmem' _ _ x hx))
      (by
        intro c hc
        rcases (by omega : c = 0 ∨ c = 1 ∨ c = 2) with rfl | rfl | rfl
        · exact List.mem_append_left _ hy0'
        · exact List.mem_append_left _ hy1'
        · exact List.mem_append_left _ hy2')

/-- Concrete raw dataset used to instantiate the workflow theorem: 12 rows
whose selected columns are constant, with alternating binary labels. -/
def rawC2 : List (List ℚ) × List ℕ :=
  ([[0, 0, 0, 0, 0, 0, 0, 0, 0, 0, 0], [0, 0, 0, 0, 0, 0, 0, 0, 0, 0, 0],
    [0, 0, 0, 0, 0, 0, 0, 0, 0, 0, 0], [0, 0, 0, 0, 0, 0, 0, 0, 0, 0, 0],
    [0, 0, 0, 0, 0, 0, 0, 0, 0, 0, 0], [0, 0, 0, 0, 0, 0, 0, 0, 0, 0, 0],
    [0, 0, 0, 0, 0, 0, 0, 0, 0, 0, 0], [0, 0, 0, 0, 0, 0, 0, 0, 0, 0, 0],
    [0, 0, 0, 0, 0, 0, 0, 0, 0, 0, 0], [0, 0, 0, 0, 0, 0, 0, 0, 0, 0, 0],
    [0, 0, 0, 0, 0, 0, 0, 0, 0, 0, 0], [0, 0, 0, 0, 0, 0, 0, 0, 0, 0, 0]],
   [0, 1, 0, 1, 0, 1, 0, 1, 0, 1, 0, 1])

/-- Concrete split primitive for the workflow witness: at 12 rows it keeps
the last 8 rows as the test block, at any other size it reserves the first
two indices for the test block. -/
def c2Split : SplitFn := fun _ _ n =>
  if n = 12 then ((List.range 12).take 4, (List.range 12).drop 4)
  else ((List.range n).drop 2, (List.range n).take 2)

/-- Concrete SVC predictor for the workflow witness: predicts label 0 for
every test row. -/
def c2Pred : List (List ℚ) → List ℕ → List (List ℚ) → List ℕ :=
  fun _ _ C => C.map fun _ => 0

def c2Xtr : List (List ℚ) := [[0, 0], [0, 0], [0, 0], [0, 0], [0, 0], [0, 0]]
def c2Xte : List (List ℚ) := [[0, 0], [0, 0]]
def c2ytr : List ℕ := [0, 1, 0, 1, 0, 1]
def c2yte : List ℕ := [0, 1]

/-- Witness for C2 on the concrete 12-row pipeline. -/
theorem C2_workflow_shapes_witness :
    partition_data c2Split 0 (get_data (7 : ℚ) rawC2).1
      (get_data (7 : ℚ) rawC2).2 = (c2Xtr, c2Xte, c2ytr, c2yte) ∧
    c2Xtr.length = 6 ∧ c2Xte.length = 2 ∧ 0 ∈ c2yte ∧ 1 ∈ c2yte ∧
    ((∃ Ktr Kte : List (List ℚ),
      construct_K_matrix (kernel_values_idx (fun _ _ => 0) c2Xtr c2Xtr
        N_TRAIN N_TRAIN) c2Xtr c2Xtr = some Ktr ∧
      Ktr.length = 6 ∧ (∀ r ∈ Ktr, r.length = 6) ∧
      construct_K_matrix (kernel_values_idx (fun _ _ => 0) c2Xte c2Xtr
        N_TEST N_TRAIN) c2Xte c2Xtr = some Kte ∧
      Kte.length = 2 ∧ (∀ r ∈ Kte, r.length = 6) ∧
      workflow (7 : ℚ) c2Split 0 rawC2 (fun _ _ => 0) c2Pred =
        some ((c2Xtr, c2Xte, c2ytr, c2yte), c2Pred Ktr c2ytr Kte,
          confusion_matrix c2yte (c2Pred Ktr c2ytr Kte)) ∧
      (c2Pred Ktr c2ytr Kte).length = 2 ∧
      (confusion_matrix c2yte (c2Pred Ktr c2ytr Kte)).length = 2 ∧
      (∀ r ∈ confusion_matrix c2yte (c2Pred Ktr c2ytr Kte),
        r.length = 2)) ∧
    (∀ (split' : SplitFn) (g' : ℕ) (raw' : List (List ℚ) × List ℕ)
      (k' : List ℚ → List ℚ → ℚ)
      (pred' : List (List ℚ) → List ℕ → List (List ℚ) → List ℕ)
      (Xtr' Xte' : List (List ℚ)) (ytr' yte' : List ℕ),
      partition_data_tutorial split' g'
        (get_data_tutorial (7 : ℚ) raw').1
        (get_data_tutorial (7 : ℚ) raw').2 = (Xtr', Xte', ytr', yte') →
      0 ∈ yte' → 1 ∈ yte' → 2 ∈ yte' → (∀ l ∈ yte', l < 3) →
      (∀ l ∈ ytr', l < 3) →
      (∀ A C l, l ∈ pred' A ytr' C → l ∈ ytr') →
      (workflow_tutorial (7 : ℚ) split' g' raw' k' pred').2.2.length = 3 ∧
      ∀ r ∈ (workflow_tutorial (7 : ℚ) split' g' raw' k' pred').2.2,
        r.length = 3)) := by
  have hdata : get_data (7 : ℚ) rawC2 =
      ([[0, 0], [0, 0], [0, 0], [0, 0], [0, 0], [0, 0], [0, 0], [0, 0],
        [0, 0], [0, 0], [0, 0], [0, 0]],
       [0, 1, 0, 1, 0, 1, 0, 1, 0, 1, 0, 1]) := by
    simp only [rawC2, get_data, select_columns, filter_classes,
      minmax_transform, scaleCol, listMin, listMax, handleZero,
      List.map_cons, List.map_nil, List.getD_cons_zero, List.getD_cons_succ,
      List.zip_cons_cons, List.zip_nil_right, List.filter_cons,
      List.filter_nil, List.foldl_cons, List.foldl_nil]
    norm_num [min_def, max_def]
  have hpart : partition_data c2Split 0 (get_data (7 : ℚ) rawC2).1
      (get_data (7 : ℚ) rawC2).2 = (c2Xtr, c2Xte, c2ytr, c2yte) := by
    rw [hdata]
    decide
  have hmem : ∀ (A C : List (List ℚ)) (l : ℕ),
      l ∈ c2Pred A c2ytr C → l ∈ c2ytr := by
    intro A C l hl
    obtain ⟨a, _, rfl⟩ := List.mem_map.mp hl
    decide
  exact ⟨hpart, by decide, by decide, by decide, by decide,
    C2_workflow_shapes (7 : ℚ) c2Split 0 rawC2 (fun _ _ => 0) c2Pred
      c2Xtr c2Xte c2ytr c2yte hpart (by decide) (by decide) (by decide)
      (by decide) (by decide) (by decide)
      (fun A C => by simp [c2Pred]) hmem⟩

end QSVM
